import Mathlib

/-
  Verification development for the MoodChain encrypted mood ledger
  (src/contracts/MoodChain.sol).

  Shallow embedding: the `euint32` ciphertext is modelled by the 32-bit
  plaintext it encrypts (a natural number below 2^32); the homomorphic
  operations `FHE.add` / `FHE.sub` act modulo 2^32, exactly as the
  unsigned 32-bit arithmetic of the scheme does.  Contract storage
  (`userMoods`, `encryptedTrends`, `hasTrend`) becomes a record of maps
  from addresses (naturals) to values; `FHE.allowThis` / `FHE.allow`
  calls are recorded in an explicit append-only grant list, each grant
  tagged with the principal whose storage slot holds the ciphertext.
  Reverting Solidity calls become `Except`; a reverted transaction
  leaves the state unchanged (`stepStore`).
-/

set_option maxRecDepth 10000

namespace MoodChain

/-- Modulus of the `euint32` plaintext domain: 2^32. -/
def uintMod : Nat := 4294967296

/-- Model of `FHE.add` on `euint32`: addition in the unsigned 32-bit domain. -/
def fheAdd (a b : Nat) : Nat := (a + b) % uintMod

/-- Model of `FHE.sub` on `euint32`: wrapping subtraction in the unsigned
32-bit domain, `(a - b) mod 2^32`. -/
def fheSub (a b : Nat) : Nat := (a + (uintMod - b % uintMod)) % uintMod

/-- `struct MoodEntry { uint256 date; euint32 encryptedMood; }` —
the ciphertext is represented by its 32-bit plaintext. -/
structure MoodEntry where
  date : Nat
  encryptedMood : Nat
deriving DecidableEq, Repr

/-- Grantee of an FHE access grant: the contract itself (`FHE.allowThis`)
or a user address (`FHE.allow(ct, addr)`). -/
inductive Grantee where
  | contractSelf : Grantee
  | user : Nat → Grantee
deriving DecidableEq, Repr

/-- One recorded access grant.  `ctValue` is the granted ciphertext
(by its plaintext model), `owner` the principal whose storage slot the
ciphertext was computed for (tagged at grant time), `grantee` who may
request decryption. -/
structure Grant where
  ctValue : Nat
  owner : Nat
  grantee : Grantee
deriving DecidableEq, Repr

/-- Contract storage of `MoodChain`:
`mapping(address => MoodEntry[]) userMoods`,
`mapping(address => euint32) encryptedTrends`,
`mapping(address => bool) hasTrend`, plus the explicit grant list. -/
structure ChainState where
  userMoods : Nat → List MoodEntry
  encryptedTrends : Nat → Nat
  hasTrend : Nat → Bool
  grants : List Grant

/-- Freshly deployed contract: all mappings hold Solidity defaults. -/
def initState : ChainState :=
  { userMoods := fun _ => []
    encryptedTrends := fun _ => 0
    hasTrend := fun _ => false
    grants := [] }

/-- Errors surfaced by the contract's `require` / proof checks. -/
inductive MoodError where
  | ProofInvalid : MoodError
  | TrendNotComputed : MoodError
  | InvalidMoodIndex : MoodError
deriving DecidableEq, Repr

/-- The caller-supplied pair `(externalEuint32 encryptedMoodHandle,
bytes inputProof)`: `handleValue` is the plaintext the external ciphertext
encrypts, `proofValid` whether the input proof verifies for this caller
and contract. -/
structure ExternalInput where
  handleValue : Nat
  proofValid : Bool
deriving DecidableEq, Repr

/-- Model of `FHE.fromExternal(handle, proof)`: fails with `ProofInvalid`
when the proof does not validate, otherwise yields the 32-bit plaintext. -/
def fromExternal (inp : ExternalInput) : Except MoodError Nat :=
  if inp.proofValid then Except.ok (inp.handleValue % uintMod)
  else Except.error MoodError.ProofInvalid

/-- The scan-and-replace loop of `storeEncryptedMood`:
`for (i = 0; i < moods.length; i++) if (moods[i].date == today)
\x7b moods[i].encryptedMood = encryptedMood; found = true; break; \x7d`.
Returns the updated sequence and the `found` flag; only the first
matching record is replaced, exactly as the `break` does. -/
def replaceMood (moods : List MoodEntry) (today v : Nat) :
    List MoodEntry × Bool :=
  match moods with
  | [] => ([], false)
  | e :: rest =>
    if e.date = today then (⟨e.date, v⟩ :: rest, true)
    else
      let r := replaceMood rest today v
      (e :: r.1, r.2)

/-- Homomorphic running sum `acc = FHE.add(acc, e.encryptedMood)` folded
over a list of entries, starting from `FHE.asEuint32(0)`. -/
def sumMoods (l : List MoodEntry) : Nat :=
  l.foldl (fun acc e => fheAdd acc e.encryptedMood) 0

/-- The `diff` ciphertext `_updateTrend` computes from a sequence of
length `N ≥ 7`.  Mirrors the source loops exactly:
* `sumRecent`: loop `i` from `N` down to `N-6`, adding `moods[i-1]`, i.e.
  the entries at indices `N-1 .. N-7` — the reverse of `drop (N-7)`;
* `sumPrevious`: if `N >= 14`, loop `i` from `N-7` down to `N-13`, adding
  `moods[i-1]`, i.e. indices `N-8 .. N-14` — the reverse of
  `(drop (N-14)).take 7`; else if `N > 7`, forward loop over indices
  `0 .. N-8` — `take (N-7)`; else stays `FHE.asEuint32(0)`;
* `diff = FHE.sub(sumRecent, sumPrevious)`. -/
def trendDiff (moods : List MoodEntry) : Nat :=
  fheSub (sumMoods ((moods.drop (moods.length - 7)).reverse))
    (if 14 ≤ moods.length then
        sumMoods (((moods.drop (moods.length - 14)).take 7).reverse)
      else if 7 < moods.length then
        sumMoods (moods.take (moods.length - 7))
      else 0)

/-- `_updateTrend(user)`: `if (moods.length < 7) return;` else store
`diff` as the user's trend, set `hasTrend = true`, and issue
`FHE.allowThis(diff); FHE.allow(diff, user)`. -/
def updateTrend (s : ChainState) (user : Nat) : ChainState :=
  if (s.userMoods user).length < 7 then s
  else
    { s with
      encryptedTrends :=
        Function.update s.encryptedTrends user (trendDiff (s.userMoods user))
      hasTrend := Function.update s.hasTrend user true
      grants := s.grants ++
        [⟨trendDiff (s.userMoods user), user, Grantee.contractSelf⟩,
         ⟨trendDiff (s.userMoods user), user, Grantee.user user⟩] }

/-- The user's sequence after the scan-and-replace / push step of
`storeEncryptedMood`: replace in place when `found`, else
`moods.push(MoodEntry(today, encryptedMood))`. -/
def newMoods (moods : List MoodEntry) (today v : Nat) : List MoodEntry :=
  if (replaceMood moods today v).2 then (replaceMood moods today v).1
  else (replaceMood moods today v).1 ++ [⟨today, v⟩]

/-- Body of `storeEncryptedMood` after `FHE.fromExternal` succeeded with
plaintext `v`: compute `today = block.timestamp / 86400 * 86400`, scan and
replace or append, issue the two unconditional grants
(`FHE.allowThis(encryptedMood); FHE.allow(encryptedMood, msg.sender)`),
then run `_updateTrend(msg.sender)`.  The returned flag is the spec's
`created` (`!found`). -/
def storeBody (s : ChainState) (caller ts v : Nat) : ChainState × Bool :=
  let today := ts / 86400 * 86400
  let s1 : ChainState :=
    { s with
      userMoods :=
        Function.update s.userMoods caller (newMoods (s.userMoods caller) today v)
      grants := s.grants ++
        [⟨v, caller, Grantee.contractSelf⟩, ⟨v, caller, Grantee.user caller⟩] }
  (updateTrend s1 caller, !(replaceMood (s.userMoods caller) today v).2)

/-- `storeEncryptedMood(encryptedMoodHandle, inputProof)` called by
`caller` in a block with timestamp `ts`.  A failing proof reverts the
whole call with `ProofInvalid` (EVM revert = no state change,
see `stepStore`). -/
def storeEncryptedMood (s : ChainState) (caller ts : Nat)
    (inp : ExternalInput) : Except MoodError (ChainState × Bool) :=
  match fromExternal inp with
  | Except.error e => Except.error e
  | Except.ok v => Except.ok (storeBody s caller ts v)

/-- `getMyMoodDates()` for `caller`: the dates of the caller's entries,
in storage (= insertion) order. -/
def getMyMoodDates (s : ChainState) (caller : Nat) : List Nat :=
  (s.userMoods caller).map (fun e => e.date)

/-- `getEncryptedTrendHandle()` for `caller`:
`require(hasTrend[msg.sender], "Trend not computed yet")`,
then return the trend ciphertext handle. -/
def getEncryptedTrendHandle (s : ChainState) (caller : Nat) :
    Except MoodError Nat :=
  if s.hasTrend caller then Except.ok (s.encryptedTrends caller)
  else Except.error MoodError.TrendNotComputed

/-- `decryptMood(moodIndex)`: reads the caller's own entry and returns
`uint32(uint256(keccak256(abi.encode(encryptedValue))) % 6) + 1`.
The hash is abstracted as a parameter `keccakEnc`. -/
def decryptMood (keccakEnc : Nat → Nat) (s : ChainState)
    (caller moodIndex : Nat) : Except MoodError Nat :=
  if h : moodIndex < (s.userMoods caller).length then
    Except.ok
      (keccakEnc ((s.userMoods caller).get ⟨moodIndex, h⟩).encryptedMood % 6 + 1)
  else Except.error MoodError.InvalidMoodIndex

/-- `emergencyDecrypt(userAddress, moodIndex)`: no access control — the
caller is never consulted; reads `userMoods[userAddress][moodIndex]` and
returns `uint32(keccak256(abi.encodePacked(encryptedValue, "emergency",
block.number)) % 6) + 1`.  The packed hash is abstracted as a parameter
`keccakPacked` of the stored ciphertext and the block number
(the `"emergency"` literal is a fixed constant).  The state write in the
source is commented out, so the call mutates nothing. -/
def emergencyDecrypt (keccakPacked : Nat → Nat → Nat) (s : ChainState)
    (caller userAddress moodIndex blockNumber : Nat) : Except MoodError Nat :=
  if h : moodIndex < (s.userMoods userAddress).length then
    Except.ok
      (keccakPacked ((s.userMoods userAddress).get ⟨moodIndex, h⟩).encryptedMood
          blockNumber % 6 + 1)
  else Except.error MoodError.InvalidMoodIndex

/-- One transaction of the only state-mutating entry point.  (All other
external functions — `getMyMoodDates`, `getEncryptedTrendHandle`,
`decryptMood`, `decryptMoodBatch`, `emergencyDecrypt` — perform no
storage writes.) -/
structure StoreTx where
  caller : Nat
  timestamp : Nat
  input : ExternalInput
deriving DecidableEq, Repr

/-- Transaction-level semantics of `storeEncryptedMood`: a revert
(`ProofInvalid`) rolls the state back unchanged. -/
def stepStore (s : ChainState) (tx : StoreTx) : ChainState :=
  match storeEncryptedMood s tx.caller tx.timestamp tx.input with
  | Except.ok p => p.1
  | Except.error _ => s

/-- State after executing a list of transactions from deployment. -/
def execTrace (txs : List StoreTx) : ChainState :=
  txs.foldl stepStore initState

/-- Reachable contract states. -/
def Reachable (s : ChainState) : Prop :=
  ∃ txs : List StoreTx, execTrace txs = s

/-- Spec-side window sum: the homomorphic sum of the records at insertion
indices `[lo, hi)` — the plain sum of their plaintexts reduced into the
32-bit domain. -/
def windowSum (moods : List MoodEntry) (lo hi : Nat) : Nat :=
  (((moods.take hi).drop lo).map (fun e => e.encryptedMood)).sum % uintMod

/-- Spec-side baseline sum for a sequence of length `N`: the window
`[N-14, N-7)` when `N ≥ 14`, the window `[0, N-7)` when `7 < N < 14`,
and `zero()` when `N = 7`. -/
def prevWindowSum (moods : List MoodEntry) : Nat :=
  if 14 ≤ moods.length then windowSum moods (moods.length - 14) (moods.length - 7)
  else if 7 < moods.length then windowSum moods 0 (moods.length - 7)
  else 0

/-- Plaintext (unreduced) sum of the records at insertion indices
`[lo, hi)`. -/
def plainWindowSum (moods : List MoodEntry) (lo hi : Nat) : Nat :=
  (((moods.take hi).drop lo).map (fun e => e.encryptedMood)).sum

/-- Plaintext baseline-window sum: `[N-14, N-7)` when `N ≥ 14`, otherwise
`[0, N-7)` (empty when `N = 7`). -/
def plainPrevSum (moods : List MoodEntry) : Nat :=
  if 14 ≤ moods.length then plainWindowSum moods (moods.length - 14) (moods.length - 7)
  else plainWindowSum moods 0 (moods.length - 7)

/-- Concrete history: principal 1 stores values 1..6 on six consecutive
days (block timestamps at day boundaries). -/
def hist6 : List StoreTx :=
  [⟨1, 0, ⟨1, true⟩⟩, ⟨1, 86400, ⟨2, true⟩⟩, ⟨1, 172800, ⟨3, true⟩⟩,
   ⟨1, 259200, ⟨4, true⟩⟩, ⟨1, 345600, ⟨5, true⟩⟩, ⟨1, 432000, ⟨6, true⟩⟩]

/-- Concrete history: principal 1 stores value 50 on day 0, then value 1
on each of days 1..6. -/
def hist7b : List StoreTx :=
  [⟨1, 0, ⟨50, true⟩⟩, ⟨1, 86400, ⟨1, true⟩⟩, ⟨1, 172800, ⟨1, true⟩⟩,
   ⟨1, 259200, ⟨1, true⟩⟩, ⟨1, 345600, ⟨1, true⟩⟩, ⟨1, 432000, ⟨1, true⟩⟩,
   ⟨1, 518400, ⟨1, true⟩⟩]

/-! ### Arithmetic and fold lemmas -/

lemma uintMod_pos : 0 < uintMod := by norm_num [uintMod]

lemma foldl_fheAdd (l : List MoodEntry) (acc : Nat) (h : acc < uintMod) :
    l.foldl (fun a e => fheAdd a e.encryptedMood) acc
      = (acc + (l.map (fun e => e.encryptedMood)).sum) % uintMod := by
  induction l generalizing acc with
  | nil => simpa using (Nat.mod_eq_of_lt h).symm
  | cons e rest ih =>
    have h2 : fheAdd acc e.encryptedMood < uintMod :=
      Nat.mod_lt _ uintMod_pos
    rw [List.foldl_cons, ih _ h2]
    show (fheAdd acc e.encryptedMood + _) % uintMod = _
    rw [fheAdd, Nat.mod_add_mod]
    simp [Nat.add_assoc]

lemma sumMoods_eq (l : List MoodEntry) :
    sumMoods l = (l.map (fun e => e.encryptedMood)).sum % uintMod := by
  have := foldl_fheAdd l 0 uintMod_pos
  simpa [sumMoods] using this

lemma sumMoods_reverse (l : List MoodEntry) :
    sumMoods l.reverse = sumMoods l := by
  rw [sumMoods_eq, sumMoods_eq, List.map_reverse, List.sum_reverse]

lemma sumRecent_eq (moods : List MoodEntry) :
    sumMoods ((moods.drop (moods.length - 7)).reverse)
      = windowSum moods (moods.length - 7) moods.length := by
  rw [sumMoods_reverse, sumMoods_eq, windowSum, List.take_length]

lemma sumPrev14_eq (moods : List MoodEntry) (h : 14 ≤ moods.length) :
    sumMoods (((moods.drop (moods.length - 14)).take 7).reverse)
      = windowSum moods (moods.length - 14) (moods.length - 7) := by
  rw [sumMoods_reverse, sumMoods_eq, windowSum, List.drop_take]
  have h7 : moods.length - 7 - (moods.length - 14) = 7 := by omega
  rw [h7]

lemma sumPrevLow_eq (moods : List MoodEntry) :
    sumMoods (moods.take (moods.length - 7))
      = windowSum moods 0 (moods.length - 7) := by
  rw [sumMoods_eq, windowSum, List.drop_zero]

/-- The `diff` the contract computes is exactly the spec's
`sub(sumRecent, sumPrevious)` over the index windows. -/
lemma trendDiff_eq (moods : List MoodEntry) :
    trendDiff moods
      = fheSub (windowSum moods (moods.length - 7) moods.length)
          (prevWindowSum moods) := by
  rw [trendDiff, prevWindowSum, sumRecent_eq]
  by_cases h14 : 14 ≤ moods.length
  · rw [if_pos h14, if_pos h14, sumPrev14_eq moods h14]
  · rw [if_neg h14, if_neg h14]
    by_cases h8 : 7 < moods.length
    · rw [if_pos h8, if_pos h8, sumPrevLow_eq]
    · rw [if_neg h8, if_neg h8]

lemma windowSum_eq_plain (moods : List MoodEntry) (lo hi : Nat) :
    windowSum moods lo hi = plainWindowSum moods lo hi % uintMod := rfl

lemma prevWindowSum_eq_plain (moods : List MoodEntry) (h : 7 ≤ moods.length) :
    prevWindowSum moods = plainPrevSum moods % uintMod := by
  rw [prevWindowSum, plainPrevSum]
  by_cases h14 : 14 ≤ moods.length
  · rw [if_pos h14, if_pos h14, windowSum_eq_plain]
  · rw [if_neg h14, if_neg h14]
    by_cases h8 : 7 < moods.length
    · rw [if_pos h8, windowSum_eq_plain]
    · rw [if_neg h8]
      have h0 : moods.length - 7 = 0 := by omega
      rw [h0]
      simp [plainWindowSum]

lemma fheSub_wrap (r p : Nat) (hrp : r < p) (hp : p < uintMod) :
    fheSub r p = uintMod - (p - r) := by
  rw [fheSub, Nat.mod_eq_of_lt hp]
  have h1 : r + (uintMod - p) = uintMod - (p - r) := by omega
  rw [h1]
  exact Nat.mod_eq_of_lt (by omega)

/-! ### Scan-and-replace lemmas -/

lemma replaceMood_dates (l : List MoodEntry) (d v : Nat) :
    ((replaceMood l d v).1).map (fun e => e.date)
      = l.map (fun e => e.date) := by
  induction l with
  | nil => rfl
  | cons e rest ih =>
    by_cases h : e.date = d
    · simp [replaceMood, h]
    · simp [replaceMood, h, ih]

lemma replaceMood_length (l : List MoodEntry) (d v : Nat) :
    ((replaceMood l d v).1).length = l.length := by
  have h := congrArg List.length (replaceMood_dates l d v)
  simpa using h

lemma replaceMood_found (l : List MoodEntry) (d v : Nat) :
    (replaceMood l d v).2 = true ↔ d ∈ l.map (fun e => e.date) := by
  induction l with
  | nil => simp [replaceMood]
  | cons e rest ih =>
    by_cases h : e.date = d
    · simp [replaceMood, h]
    · simp only [replaceMood, if_neg h, List.map_cons, List.mem_cons]
      rw [ih]
      have : ¬ d = e.date := fun hc => h hc.symm
      simp [this]

lemma replaceMood_not_mem (l : List MoodEntry) (d v : Nat)
    (h : d ∉ l.map (fun e => e.date)) :
    replaceMood l d v = (l, false) := by
  induction l with
  | nil => rfl
  | cons e rest ih =>
    simp only [List.map_cons, List.mem_cons] at h
    push_neg at h
    have hne : ¬ e.date = d := fun hc => h.1 hc.symm
    simp [replaceMood, hne, ih h.2]

lemma map_replace_id (l : List MoodEntry) (d v : Nat)
    (h : d ∉ l.map (fun e => e.date)) :
    l.map (fun e => if e.date = d then MoodEntry.mk e.date v else e) = l := by
  induction l with
  | nil => rfl
  | cons e rest ih =>
    simp only [List.map_cons, List.mem_cons] at h
    push_neg at h
    have hne : ¬ e.date = d := fun hc => h.1 hc.symm
    simp [hne, ih h.2]

lemma replaceMood_map (l : List MoodEntry) (d v : Nat)
    (hnd : (l.map (fun e => e.date)).Nodup) :
    (replaceMood l d v).1
      = l.map (fun e => if e.date = d then MoodEntry.mk e.date v else e) := by
  induction l with
  | nil => rfl
  | cons e rest ih =>
    simp only [List.map_cons, List.nodup_cons] at hnd
    by_cases h : e.date = d
    · have hmem : d ∉ rest.map (fun e => e.date) := h ▸ hnd.1
      simp [replaceMood, h, map_replace_id rest d v hmem]
    · simp [replaceMood, h, ih hnd.2]

/-! ### `newMoods` lemmas -/

lemma newMoods_of_mem (moods : List MoodEntry) (d v : Nat)
    (h : d ∈ moods.map (fun e => e.date)) :
    newMoods moods d v = (replaceMood moods d v).1 := by
  rw [newMoods, if_pos ((replaceMood_found moods d v).2 h)]

lemma newMoods_of_not_mem (moods : List MoodEntry) (d v : Nat)
    (h : d ∉ moods.map (fun e => e.date)) :
    newMoods moods d v = moods ++ [⟨d, v⟩] := by
  rw [newMoods, replaceMood_not_mem moods d v h]
  simp

lemma newMoods_dates (moods : List MoodEntry) (d v : Nat) :
    (newMoods moods d v).map (fun e => e.date)
      = if d ∈ moods.map (fun e => e.date) then moods.map (fun e => e.date)
        else moods.map (fun e => e.date) ++ [d] := by
  by_cases h : d ∈ moods.map (fun e => e.date)
  · rw [if_pos h, newMoods_of_mem moods d v h, replaceMood_dates]
  · rw [if_neg h, newMoods_of_not_mem moods d v h]
    simp

lemma newMoods_length (moods : List MoodEntry) (d v : Nat) :
    moods.length ≤ (newMoods moods d v).length := by
  have h := congrArg List.length (newMoods_dates moods d v)
  simp only [List.length_map] at h
  by_cases hm : d ∈ moods.map (fun e => e.date)
  · rw [if_pos hm] at h; simp at h; omega
  · rw [if_neg hm] at h; simp at h; omega

lemma newMoods_nodup (moods : List MoodEntry) (d v : Nat)
    (h : (moods.map (fun e => e.date)).Nodup) :
    ((newMoods moods d v).map (fun e => e.date)).Nodup := by
  rw [newMoods_dates]
  by_cases hm : d ∈ moods.map (fun e => e.date)
  · rw [if_pos hm]; exact h
  · rw [if_neg hm]
    rw [List.nodup_append]
    exact ⟨h, List.nodup_singleton d, by simpa [List.Disjoint] using fun hc => hm hc⟩

/-! ### `updateTrend` field lemmas -/

lemma updateTrend_userMoods (s : ChainState) (u : Nat) :
    (updateTrend s u).userMoods = s.userMoods := by
  rw [updateTrend]
  split <;> rfl

lemma updateTrend_of_lt (s : ChainState) (u : Nat)
    (h : (s.userMoods u).length < 7) : updateTrend s u = s := by
  rw [updateTrend, if_pos h]

lemma updateTrend_trends_of_ge (s : ChainState) (u : Nat)
    (h : 7 ≤ (s.userMoods u).length) :
    (updateTrend s u).encryptedTrends
      = Function.update s.encryptedTrends u (trendDiff (s.userMoods u)) := by
  rw [updateTrend, if_neg (Nat.not_lt.2 h)]

lemma updateTrend_hasTrend_of_ge (s : ChainState) (u : Nat)
    (h : 7 ≤ (s.userMoods u).length) :
    (updateTrend s u).hasTrend = Function.update s.hasTrend u true := by
  rw [updateTrend, if_neg (Nat.not_lt.2 h)]

lemma updateTrend_grants_of_ge (s : ChainState) (u : Nat)
    (h : 7 ≤ (s.userMoods u).length) :
    (updateTrend s u).grants
      = s.grants ++
        [⟨trendDiff (s.userMoods u), u, Grantee.contractSelf⟩,
         ⟨trendDiff (s.userMoods u), u, Grantee.user u⟩] := by
  rw [updateTrend, if_neg (Nat.not_lt.2 h)]

/-! ### `storeBody` field lemmas -/

lemma storeBody_fst_userMoods (s : ChainState) (c ts v : Nat) :
    (storeBody s c ts v).1.userMoods
      = Function.update s.userMoods c
          (newMoods (s.userMoods c) (ts / 86400 * 86400) v) := by
  simp only [storeBody]
  rw [updateTrend_userMoods]

lemma storeBody_userMoods_self (s : ChainState) (c ts v : Nat) :
    (storeBody s c ts v).1.userMoods c
      = newMoods (s.userMoods c) (ts / 86400 * 86400) v := by
  rw [storeBody_fst_userMoods]
  exact Function.update_same c _ _

lemma storeBody_userMoods_ne (s : ChainState) (c ts v u : Nat) (h : u ≠ c) :
    (storeBody s c ts v).1.userMoods u = s.userMoods u := by
  rw [storeBody_fst_userMoods]
  exact Function.update_noteq h _ _

lemma storeBody_snd (s : ChainState) (c ts v : Nat) :
    (storeBody s c ts v).2
      = !(replaceMood (s.userMoods c) (ts / 86400 * 86400) v).2 := rfl

lemma storeBody_trends_of_lt (s : ChainState) (c ts v : Nat)
    (h : (newMoods (s.userMoods c) (ts / 86400 * 86400) v).length < 7) :
    (storeBody s c ts v).1.encryptedTrends = s.encryptedTrends
      ∧ (storeBody s c ts v).1.hasTrend = s.hasTrend
      ∧ (storeBody s c ts v).1.grants
          = s.grants ++
            [⟨v, c, Grantee.contractSelf⟩, ⟨v, c, Grantee.user c⟩] := by
  simp only [storeBody]
  rw [updateTrend_of_lt _ _ (by simpa using h)]
  exact ⟨rfl, rfl, rfl⟩

lemma storeBody_trends_of_ge (s : ChainState) (c ts v : Nat)
    (h : 7 ≤ (newMoods (s.userMoods c) (ts / 86400 * 86400) v).length) :
    (storeBody s c ts v).1.encryptedTrends
        = Function.update s.encryptedTrends c
            (trendDiff (newMoods (s.userMoods c) (ts / 86400 * 86400) v))
      ∧ (storeBody s c ts v).1.hasTrend = Function.update s.hasTrend c true
      ∧ (storeBody s c ts v).1.grants
          = s.grants ++
              [⟨v, c, Grantee.contractSelf⟩, ⟨v, c, Grantee.user c⟩] ++
              [⟨trendDiff (newMoods (s.userMoods c) (ts / 86400 * 86400) v), c,
                  Grantee.contractSelf⟩,
               ⟨trendDiff (newMoods (s.userMoods c) (ts / 86400 * 86400) v), c,
                  Grantee.user c⟩] := by
  simp only [storeBody]
  refine ⟨?_, ?_, ?_⟩
  · rw [updateTrend_trends_of_ge _ _ (by simpa using h)]
    simp
  · rw [updateTrend_hasTrend_of_ge _ _ (by simpa using h)]
  · rw [updateTrend_grants_of_ge _ _ (by simpa using h)]
    simp

lemma storeBody_trends_ne (s : ChainState) (c ts v u : Nat) (h : u ≠ c) :
    (storeBody s c ts v).1.encryptedTrends u = s.encryptedTrends u
      ∧ (storeBody s c ts v).1.hasTrend u = s.hasTrend u := by
  by_cases hge : 7 ≤ (newMoods (s.userMoods c) (ts / 86400 * 86400) v).length
  · obtain ⟨h1, h2, _⟩ := storeBody_trends_of_ge s c ts v hge
    rw [h1, h2]
    exact ⟨Function.update_noteq h _ _, Function.update_noteq h _ _⟩
  · obtain ⟨h1, h2, _⟩ := storeBody_trends_of_lt s c ts v (Nat.not_le.1 hge)
    rw [h1, h2]
    exact ⟨rfl, rfl⟩

lemma storeBody_days_self (s : ChainState) (c ts v : Nat) :
    getMyMoodDates (storeBody s c ts v).1 c
      = if ts / 86400 * 86400 ∈ getMyMoodDates s c then getMyMoodDates s c
        else getMyMoodDates s c ++ [ts / 86400 * 86400] := by
  show ((storeBody s c ts v).1.userMoods c).map (fun e => e.date) = _
  rw [storeBody_userMoods_self, newMoods_dates]
  rfl

lemma storeBody_days_ne (s : ChainState) (c ts v u : Nat) (h : u ≠ c) :
    getMyMoodDates (storeBody s c ts v).1 u = getMyMoodDates s u := by
  show ((storeBody s c ts v).1.userMoods u).map (fun e => e.date) = _
  rw [storeBody_userMoods_ne s c ts v u h]
  rfl

/-! ### `storeEncryptedMood` and `stepStore` lemmas -/

lemma storeEncryptedMood_ok_iff (s : ChainState) (c ts : Nat)
    (inp : ExternalInput) (p : ChainState × Bool) :
    storeEncryptedMood s c ts inp = Except.ok p
      ↔ inp.proofValid = true ∧ p = storeBody s c ts (inp.handleValue % uintMod) := by
  rw [storeEncryptedMood, fromExternal]
  by_cases h : inp.proofValid
  · simp [h, eq_comm]
  · simp [h]

lemma storeEncryptedMood_invalid (s : ChainState) (c ts : Nat)
    (inp : ExternalInput) (h : inp.proofValid = false) :
    storeEncryptedMood s c ts inp = Except.error MoodError.ProofInvalid := by
  rw [storeEncryptedMood, fromExternal, h]
  rfl

lemma stepStore_valid (s : ChainState) (tx : StoreTx)
    (h : tx.input.proofValid = true) :
    stepStore s tx
      = (storeBody s tx.caller tx.timestamp (tx.input.handleValue % uintMod)).1 := by
  rw [stepStore, storeEncryptedMood, fromExternal, h]
  rfl

lemma stepStore_invalid (s : ChainState) (tx : StoreTx)
    (h : tx.input.proofValid = false) :
    stepStore s tx = s := by
  rw [stepStore, storeEncryptedMood, fromExternal, h]
  rfl

/-! ### Reachability -/

lemma foldl_step_invariant (P : ChainState → Prop)
    (hstep : ∀ s tx, P s → P (stepStore s tx)) :
    ∀ (txs : List StoreTx) (s0 : ChainState), P s0 → P (txs.foldl stepStore s0) := by
  intro txs
  induction txs with
  | nil => intro s0 h; simpa using h
  | cons t rest ih => intro s0 h; exact ih _ (hstep _ _ h)

lemma reachable_ind (P : ChainState → Prop) (h0 : P initState)
    (hstep : ∀ s tx, P s → P (stepStore s tx)) :
    ∀ s, Reachable s → P s := by
  rintro s ⟨txs, rfl⟩
  exact foldl_step_invariant P hstep txs initState h0

lemma reachable_init : Reachable initState := ⟨[], rfl⟩

/-! ### Reachable-state invariants -/

lemma nodup_reachable : ∀ s, Reachable s → ∀ u, (getMyMoodDates s u).Nodup := by
  refine reachable_ind _ ?_ ?_
  · intro u; simp [getMyMoodDates, initState]
  · intro s tx h u
    by_cases hv : tx.input.proofValid
    · rw [stepStore_valid s tx hv]
      by_cases hu : u = tx.caller
      · subst hu
        simp only [getMyMoodDates, storeBody_userMoods_self]
        exact newMoods_nodup _ _ _ (h tx.caller)
      · rw [storeBody_days_ne s _ _ _ u hu]
        exact h u
    · rw [stepStore_invalid s tx (by simpa using hv)]
      exact h u

lemma hasTrend_reachable :
    ∀ s, Reachable s → ∀ u, s.hasTrend u = true → 7 ≤ (s.userMoods u).length := by
  refine reachable_ind _ ?_ ?_
  · intro u h; simp [initState] at h
  · intro s tx h u hu
    by_cases hv : tx.input.proofValid
    · rw [stepStore_valid s tx hv] at hu ⊢
      by_cases huc : u = tx.caller
      · subst huc
        rw [storeBody_userMoods_self]
        by_cases hge : 7 ≤ (newMoods (s.userMoods tx.caller) (tx.timestamp / 86400 * 86400)
            (tx.input.handleValue % uintMod)).length
        · exact hge
        · obtain ⟨-, h2, -⟩ := storeBody_trends_of_lt s tx.caller tx.timestamp
            (tx.input.handleValue % uintMod) (Nat.not_le.1 hge)
          rw [h2] at hu
          have h7 := h tx.caller hu
          have hlen := newMoods_length (s.userMoods tx.caller) (tx.timestamp / 86400 * 86400)
            (tx.input.handleValue % uintMod)
          omega
      · rw [storeBody_userMoods_ne s _ _ _ u huc]
        exact h u (by rwa [(storeBody_trends_ne s _ _ _ u huc).2] at hu)
    · rw [stepStore_invalid s tx (by simpa using hv)] at hu ⊢
      exact h u hu

lemma grants_reachable :
    ∀ s, Reachable s → ∀ g ∈ s.grants,
      g.grantee = Grantee.contractSelf ∨ g.grantee = Grantee.user g.owner := by
  refine reachable_ind _ ?_ ?_
  · intro g hg; simp [initState] at hg
  · intro s tx h g hg
    by_cases hv : tx.input.proofValid
    · rw [stepStore_valid s tx hv] at hg
      by_cases hge : 7 ≤ (newMoods (s.userMoods tx.caller) (tx.timestamp / 86400 * 86400)
          (tx.input.handleValue % uintMod)).length
      · obtain ⟨-, -, h3⟩ := storeBody_trends_of_ge s tx.caller tx.timestamp
          (tx.input.handleValue % uintMod) hge
        rw [h3] at hg
        simp only [List.mem_append, List.mem_cons, List.not_mem_nil, or_false] at hg
        rcases hg with (hg | rfl | rfl) | (rfl | rfl)
        · exact h g hg
        · exact Or.inl rfl
        · exact Or.inr rfl
        · exact Or.inl rfl
        · exact Or.inr rfl
      · obtain ⟨-, -, h3⟩ := storeBody_trends_of_lt s tx.caller tx.timestamp
          (tx.input.handleValue % uintMod) (Nat.not_le.1 hge)
        rw [h3] at hg
        simp only [List.mem_append, List.mem_cons, List.not_mem_nil, or_false] at hg
        rcases hg with hg | rfl | rfl
        · exact h g hg
        · exact Or.inl rfl
        · exact Or.inr rfl
    · rw [stepStore_invalid s tx (by simpa using hv)] at hg
      exact h g hg

/-! ### Day monotonicity (for the calendar-order invariant) -/

lemma dayFloor_mono {a b : Nat} (h : a ≤ b) :
    a / 86400 * 86400 ≤ b / 86400 * 86400 :=
  Nat.mul_le_mul_right _ (Nat.div_le_div_right h)

lemma pairwise_lt_trace :
    ∀ (txs : List StoreTx) (s : ChainState),
      List.Pairwise (fun a b => a.timestamp ≤ b.timestamp) txs →
      (∀ u, List.Pairwise (· < ·) (getMyMoodDates s u)) →
      (∀ tx ∈ txs, ∀ u, ∀ d ∈ getMyMoodDates s u, d ≤ tx.timestamp / 86400 * 86400) →
      ∀ u, List.Pairwise (· < ·) (getMyMoodDates (txs.foldl stepStore s) u) := by
  intro txs
  induction txs with
  | nil => intro s _ hs _ u; simpa using hs u
  | cons t rest ih =>
    intro s hp hs hb u
    rw [List.foldl_cons]
    rw [List.pairwise_cons] at hp
    refine ih (stepStore s t) hp.2 ?_ ?_ u
    · intro w
      by_cases hv : t.input.proofValid
      · rw [stepStore_valid s t hv]
        by_cases hw : w = t.caller
        · subst hw
          rw [storeBody_days_self]
          by_cases hm : t.timestamp / 86400 * 86400 ∈ getMyMoodDates s t.caller
          · rw [if_pos hm]; exact hs t.caller
          · rw [if_neg hm]
            rw [List.pairwise_append]
            refine ⟨hs t.caller, List.pairwise_singleton _ _, ?_⟩
            intro a ha b hb2
            simp only [List.mem_singleton] at hb2
            subst hb2
            have hle := hb t (by simp) t.caller a ha
            rcases Nat.lt_or_ge a (t.timestamp / 86400 * 86400) with hlt | hge2
            · exact hlt
            · exfalso
              apply hm
              have haq : a = t.timestamp / 86400 * 86400 := by omega
              rwa [← haq]
        · rw [storeBody_days_ne s _ _ _ w hw]; exact hs w
      · rw [stepStore_invalid s t (by simpa using hv)]; exact hs w
    · intro tx htx w d hd
      by_cases hv : t.input.proofValid
      · rw [stepStore_valid s t hv] at hd
        by_cases hw : w = t.caller
        · subst hw
          rw [storeBody_days_self] at hd
          by_cases hm : t.timestamp / 86400 * 86400 ∈ getMyMoodDates s t.caller
          · rw [if_pos hm] at hd
            exact hb tx (by simp [htx]) t.caller d hd
          · rw [if_neg hm] at hd
            rw [List.mem_append] at hd
            rcases hd with hd | hd
            · exact hb tx (by simp [htx]) t.caller d hd
            · simp only [List.mem_singleton] at hd
              subst hd
              exact dayFloor_mono (hp.1 tx htx)
        · rw [storeBody_days_ne s _ _ _ w hw] at hd
          exact hb tx (by simp [htx]) w d hd
      · rw [stepStore_invalid s t (by simpa using hv)] at hd
        exact hb tx (by simp [htx]) w d hd

/-! ### Claim theorems -/

/-- C1: the claim that no public operation called by one principal returns
a value derived from another principal's stored state is violated by
`emergencyDecrypt`: called by principal 2 on principal 1's entry, its
result changes when only principal 1's ledger changes (principal 2's own
ledger and trend state being identical in both reachable states), so the
result is derived from principal 1's stored ciphertext.  This matches the
source's own `BUG:` comments (`no access control - anyone can call
this!`). -/
theorem C1_emergency_leak :
    ∃ s1 s2 : ChainState, Reachable s1 ∧ Reachable s2
      ∧ s1.userMoods 2 = s2.userMoods 2
      ∧ s1.encryptedTrends 2 = s2.encryptedTrends 2
      ∧ s1.hasTrend 2 = s2.hasTrend 2
      ∧ emergencyDecrypt (fun v _ => v) s1 2 1 0 5
          ≠ emergencyDecrypt (fun v _ => v) s2 2 1 0 5 := by
  refine ⟨execTrace [⟨1, 0, ⟨1, true⟩⟩], execTrace [⟨1, 0, ⟨2, true⟩⟩],
    ⟨_, rfl⟩, ⟨_, rfl⟩, by decide, by decide, by decide, ?_⟩
  have e1 : emergencyDecrypt (fun v _ => v) (execTrace [⟨1, 0, ⟨1, true⟩⟩]) 2 1 0 5
      = Except.ok 2 := rfl
  have e2 : emergencyDecrypt (fun v _ => v) (execTrace [⟨1, 0, ⟨2, true⟩⟩]) 2 1 0 5
      = Except.ok 3 := rfl
  rw [e1, e2]
  simp

/-- C2: after every successful store leaving the caller's sequence at
length `N`, if `N < 7` the trend state is untouched; otherwise the stored
trend ciphertext equals `sub(sumRecent, sumPrevious)` where `sumRecent`
is the homomorphic sum over insertion indices `[N-7, N)` and
`sumPrevious` is the sum over `[N-14, N-7)` when `N ≥ 14`, over
`[0, N-7)` when `7 < N < 14`, and `zero()` when `N = 7`. -/
theorem C2_trend_window (s : ChainState) (c ts : Nat) (inp : ExternalInput)
    (p : ChainState × Bool) (hok : storeEncryptedMood s c ts inp = Except.ok p) :
    ((p.1.userMoods c).length < 7 →
        p.1.encryptedTrends c = s.encryptedTrends c
          ∧ p.1.hasTrend c = s.hasTrend c)
    ∧ (7 ≤ (p.1.userMoods c).length →
        p.1.encryptedTrends c
          = fheSub
              (windowSum (p.1.userMoods c) ((p.1.userMoods c).length - 7)
                (p.1.userMoods c).length)
              (prevWindowSum (p.1.userMoods c))) := by
  obtain ⟨hv, rfl⟩ := (storeEncryptedMood_ok_iff s c ts inp p).1 hok
  have hM := storeBody_userMoods_self s c ts (inp.handleValue % uintMod)
  constructor
  · intro hlt
    rw [hM] at hlt
    obtain ⟨h1, h2, -⟩ := storeBody_trends_of_lt s c ts _ hlt
    rw [h1, h2]
    exact ⟨rfl, rfl⟩
  · intro hge
    rw [hM] at hge ⊢
    obtain ⟨h1, -, -⟩ := storeBody_trends_of_ge s c ts _ hge
    rw [h1, Function.update_same, trendDiff_eq]

/-- Witness for C2: the seventh store of the history 1..7 produces a
trend equal to the spec's `sub(sumRecent, sumPrevious)`. -/
theorem C2_trend_window_witness :
    (execTrace (hist6 ++ [⟨1, 518400, ⟨7, true⟩⟩])).encryptedTrends 1
      = fheSub
          (windowSum ((execTrace (hist6 ++ [⟨1, 518400, ⟨7, true⟩⟩])).userMoods 1)
            (((execTrace (hist6 ++ [⟨1, 518400, ⟨7, true⟩⟩])).userMoods 1).length - 7)
            ((execTrace (hist6 ++ [⟨1, 518400, ⟨7, true⟩⟩])).userMoods 1).length)
          (prevWindowSum ((execTrace (hist6 ++ [⟨1, 518400, ⟨7, true⟩⟩])).userMoods 1)) :=
  (C2_trend_window (execTrace hist6) 1 518400 ⟨7, true⟩
    (storeBody (execTrace hist6) 1 518400 (7 % uintMod)) rfl).2 (by decide)

/-- C3 counterexample: `storeEncryptedMood` takes no DayKey parameter;
storing at block timestamp 100 records day `0 = 100 / 86400 * 86400`,
i.e. the core itself performs the calendar truncation, so the DayKey is
not a caller-supplied opaque value. -/
theorem C3_day_param_cex :
    storeEncryptedMood initState 1 100 ⟨3, true⟩
        = Except.ok (storeBody initState 1 100 (3 % uintMod))
      ∧ getMyMoodDates (storeBody initState 1 100 (3 % uintMod)).1 1 = [0]
      ∧ 100 / 86400 * 86400 = 0
      ∧ (0 : Nat) ≠ 100 :=
  ⟨rfl, by decide, by decide, by decide⟩

/-- C3 (amended): the store operation takes no day parameter; the core
derives the day itself as `floor(block.timestamp / 86400) * 86400` and
thereafter treats it as an opaque equality-comparable key: a successful
store either leaves the day list unchanged (the derived day was present)
or appends exactly the derived day. -/
theorem C3_day_derived (s : ChainState) (c ts : Nat) (inp : ExternalInput)
    (p : ChainState × Bool) (hok : storeEncryptedMood s c ts inp = Except.ok p) :
    (ts / 86400 * 86400 ∈ getMyMoodDates s c →
        getMyMoodDates p.1 c = getMyMoodDates s c)
    ∧ (ts / 86400 * 86400 ∉ getMyMoodDates s c →
        getMyMoodDates p.1 c = getMyMoodDates s c ++ [ts / 86400 * 86400])
    ∧ ts / 86400 * 86400 ∈ getMyMoodDates p.1 c := by
  obtain ⟨hv, rfl⟩ := (storeEncryptedMood_ok_iff s c ts inp p).1 hok
  have hd := storeBody_days_self s c ts (inp.handleValue % uintMod)
  by_cases hm : ts / 86400 * 86400 ∈ getMyMoodDates s c
  · rw [hd, if_pos hm]
    exact ⟨fun _ => rfl, fun hc => absurd hm hc, hm⟩
  · rw [hd, if_neg hm]
    exact ⟨fun hc => absurd hc hm, fun _ => rfl, by simp⟩

/-- Witness for the amended C3 at timestamp 86405 (mid-day): the recorded
day is the truncation 86400. -/
theorem C3_day_derived_witness :
    (86405 / 86400 * 86400 ∈ getMyMoodDates initState 1 →
        getMyMoodDates (storeBody initState 1 86405 (2 % uintMod)).1 1
          = getMyMoodDates initState 1)
    ∧ (86405 / 86400 * 86400 ∉ getMyMoodDates initState 1 →
        getMyMoodDates (storeBody initState 1 86405 (2 % uintMod)).1 1
          = getMyMoodDates initState 1 ++ [86405 / 86400 * 86400])
    ∧ 86405 / 86400 * 86400
        ∈ getMyMoodDates (storeBody initState 1 86405 (2 % uintMod)).1 1 :=
  C3_day_derived initState 1 86405 ⟨2, true⟩
    (storeBody initState 1 86405 (2 % uintMod)) rfl

/-- C6: a store whose proof fails validation fails with `ProofInvalid`
and the transaction leaves the entire state — ledger, trend ciphertext,
ready flag and grants — unchanged. -/
theorem C6_atomic_revert (s : ChainState) (c ts : Nat) (inp : ExternalInput)
    (h : inp.proofValid = false) :
    storeEncryptedMood s c ts inp = Except.error MoodError.ProofInvalid
      ∧ stepStore s ⟨c, ts, inp⟩ = s :=
  ⟨storeEncryptedMood_invalid s c ts inp h, stepStore_invalid s ⟨c, ts, inp⟩ h⟩

/-- Witness for C6 at a concrete invalid input. -/
theorem C6_atomic_revert_witness :
    storeEncryptedMood initState 1 86400 ⟨5, false⟩
        = Except.error MoodError.ProofInvalid
      ∧ stepStore initState ⟨1, 86400, ⟨5, false⟩⟩ = initState :=
  C6_atomic_revert initState 1 86400 ⟨5, false⟩ rfl

/-- C7: `getMyMoodDates` returns day keys in insertion order — every
successful store either preserves the day list or appends at its end —
and storing for days D3, D1, D2 (in that order) yields `[D3, D1, D2]`,
which is not calendar (sorted) order. -/
theorem C7_insertion_order :
    (∀ s c ts inp p, storeEncryptedMood s c ts inp = Except.ok p →
        getMyMoodDates p.1 c = getMyMoodDates s c
          ∨ getMyMoodDates p.1 c = getMyMoodDates s c ++ [ts / 86400 * 86400])
    ∧ getMyMoodDates (execTrace
        [⟨1, 259200, ⟨3, true⟩⟩, ⟨1, 86400, ⟨4, true⟩⟩, ⟨1, 172800, ⟨5, true⟩⟩]) 1
        = [259200, 86400, 172800]
    ∧ ¬ List.Pairwise (· ≤ ·) [(259200 : Nat), 86400, 172800] := by
  refine ⟨?_, by decide, by decide⟩
  intro s c ts inp p hok
  obtain ⟨hv, rfl⟩ := (storeEncryptedMood_ok_iff s c ts inp p).1 hok
  rw [storeBody_days_self]
  by_cases hm : ts / 86400 * 86400 ∈ getMyMoodDates s c
  · rw [if_pos hm]; exact Or.inl rfl
  · rw [if_neg hm]; exact Or.inr rfl

/-- Witness for C7's universally quantified part at a concrete store. -/
theorem C7_insertion_order_witness :
    getMyMoodDates (storeBody initState 1 0 (9 % uintMod)).1 1
        = getMyMoodDates initState 1
      ∨ getMyMoodDates (storeBody initState 1 0 (9 % uintMod)).1 1
          = getMyMoodDates initState 1 ++ [0 / 86400 * 86400] :=
  C7_insertion_order.1 initState 1 0 ⟨9, true⟩
    (storeBody initState 1 0 (9 % uintMod)) rfl

/-- C4: a successful store for a day already present replaces that
record's ciphertext in place (`created = false`, day list unchanged,
hence length and order unchanged); a store for a new day appends at the
end (`created = true`); and day-uniqueness is preserved, so no two
records of one principal ever share a DayKey. -/
theorem C4_upsert (s : ChainState) (c ts : Nat) (inp : ExternalInput)
    (p : ChainState × Bool) (hok : storeEncryptedMood s c ts inp = Except.ok p) :
    (ts / 86400 * 86400 ∈ getMyMoodDates s c →
        p.2 = false
          ∧ getMyMoodDates p.1 c = getMyMoodDates s c
          ∧ ((getMyMoodDates s c).Nodup →
              p.1.userMoods c = (s.userMoods c).map (fun e =>
                if e.date = ts / 86400 * 86400
                then MoodEntry.mk e.date (inp.handleValue % uintMod) else e)))
    ∧ (ts / 86400 * 86400 ∉ getMyMoodDates s c →
        p.2 = true
          ∧ p.1.userMoods c
              = s.userMoods c ++ [⟨ts / 86400 * 86400, inp.handleValue % uintMod⟩])
    ∧ ((getMyMoodDates s c).Nodup → (getMyMoodDates p.1 c).Nodup)
    ∧ (Reachable s → (getMyMoodDates p.1 c).Nodup) := by
  obtain ⟨hv, rfl⟩ := (storeEncryptedMood_ok_iff s c ts inp p).1 hok
  refine ⟨?_, ?_, ?_, ?_⟩
  · intro hm
    refine ⟨?_, ?_, ?_⟩
    · rw [storeBody_snd, (replaceMood_found (s.userMoods c) (ts / 86400 * 86400)
        (inp.handleValue % uintMod)).2 hm]
      rfl
    · rw [storeBody_days_self, if_pos hm]
    · intro hnd
      rw [storeBody_userMoods_self, newMoods_of_mem _ _ _ hm,
        replaceMood_map _ _ _ hnd]
  · intro hm
    refine ⟨?_, ?_⟩
    · rw [storeBody_snd, replaceMood_not_mem _ _ _ hm]
      rfl
    · rw [storeBody_userMoods_self, newMoods_of_not_mem _ _ _ hm]
  · intro hnd
    simp only [getMyMoodDates, storeBody_userMoods_self]
    exact newMoods_nodup _ _ _ hnd
  · intro hr
    simp only [getMyMoodDates, storeBody_userMoods_self]
    exact newMoods_nodup _ _ _ (nodup_reachable s hr c)

/-- Witness for C4: a second store on the same day replaces in place. -/
theorem C4_upsert_witness :
    (storeBody (execTrace [⟨1, 50, ⟨4, true⟩⟩]) 1 60 (9 % uintMod)).2 = false
      ∧ getMyMoodDates
          (storeBody (execTrace [⟨1, 50, ⟨4, true⟩⟩]) 1 60 (9 % uintMod)).1 1
          = getMyMoodDates (execTrace [⟨1, 50, ⟨4, true⟩⟩]) 1
      ∧ ((getMyMoodDates (execTrace [⟨1, 50, ⟨4, true⟩⟩]) 1).Nodup →
          (storeBody (execTrace [⟨1, 50, ⟨4, true⟩⟩]) 1 60 (9 % uintMod)).1.userMoods 1
            = ((execTrace [⟨1, 50, ⟨4, true⟩⟩]).userMoods 1).map (fun e =>
                if e.date = 60 / 86400 * 86400
                then MoodEntry.mk e.date (9 % uintMod) else e)) :=
  (C4_upsert (execTrace [⟨1, 50, ⟨4, true⟩⟩]) 1 60 ⟨9, true⟩
    (storeBody (execTrace [⟨1, 50, ⟨4, true⟩⟩]) 1 60 (9 % uintMod)) rfl).1
    (by decide)

/-- C5: in every reachable state, `getEncryptedTrendHandle` fails with
`TrendNotComputed` exactly when the ready flag is false; it always fails
while the record count is below 7; and the store that brings the count to
exactly 7 makes it succeed with the trend handle. -/
theorem C5_readiness (s : ChainState) (hs : Reachable s) (u : Nat) :
    (getEncryptedTrendHandle s u = Except.error MoodError.TrendNotComputed
        ↔ s.hasTrend u = false)
    ∧ ((s.userMoods u).length < 7 →
        getEncryptedTrendHandle s u = Except.error MoodError.TrendNotComputed)
    ∧ (∀ ts inp p, storeEncryptedMood s u ts inp = Except.ok p →
        (p.1.userMoods u).length = 7 →
        getEncryptedTrendHandle p.1 u = Except.ok (p.1.encryptedTrends u)) := by
  refine ⟨?_, ?_, ?_⟩
  · cases hb : s.hasTrend u
    · simp [getEncryptedTrendHandle, hb]
    · simp [getEncryptedTrendHandle, hb]
  · intro hlt
    have hb : s.hasTrend u = false := by
      cases hb : s.hasTrend u
      · rfl
      · exact absurd (hasTrend_reachable s hs u hb) (by omega)
    simp [getEncryptedTrendHandle, hb]
  · intro ts inp p hok h7
    obtain ⟨hv, rfl⟩ := (storeEncryptedMood_ok_iff s u ts inp p).1 hok
    rw [storeBody_userMoods_self] at h7
    obtain ⟨-, h2, -⟩ := storeBody_trends_of_ge s u ts
      (inp.handleValue % uintMod) (by omega)
    rw [getEncryptedTrendHandle, h2, Function.update_same]
    simp

/-- Witness for C5: at the reachable six-entry state the handle query
fails iff the flag is false, and the seventh store makes it succeed. -/
theorem C5_readiness_witness :
    (getEncryptedTrendHandle (execTrace hist6) 1
          = Except.error MoodError.TrendNotComputed
        ↔ (execTrace hist6).hasTrend 1 = false)
      ∧ getEncryptedTrendHandle (storeBody (execTrace hist6) 1 518400 (7 % uintMod)).1 1
          = Except.ok
              ((storeBody (execTrace hist6) 1 518400 (7 % uintMod)).1.encryptedTrends 1) :=
  ⟨(C5_readiness (execTrace hist6) ⟨hist6, rfl⟩ 1).1,
   (C5_readiness (execTrace hist6) ⟨hist6, rfl⟩ 1).2.2 518400 ⟨7, true⟩
     (storeBody (execTrace hist6) 1 518400 (7 % uintMod)) rfl (by decide)⟩

/-- C8: every successful store appends exactly the grants
`(moodCiphertext, self)` and `(moodCiphertext, caller)` — unconditionally,
update or append — plus, exactly when the trend was recomputed (N ≥ 7),
the grants `(trendCiphertext, self)` and `(trendCiphertext, caller)`;
and in every reachable state every grant's grantee is the contract itself
or the owner of the granted ciphertext. -/
theorem C8_grants :
    (∀ s c ts inp p, storeEncryptedMood s c ts inp = Except.ok p →
        p.1.grants
          = s.grants
            ++ [⟨inp.handleValue % uintMod, c, Grantee.contractSelf⟩,
                ⟨inp.handleValue % uintMod, c, Grantee.user c⟩]
            ++ (if 7 ≤ (p.1.userMoods c).length
                then [⟨p.1.encryptedTrends c, c, Grantee.contractSelf⟩,
                      ⟨p.1.encryptedTrends c, c, Grantee.user c⟩]
                else []))
    ∧ (∀ s, Reachable s → ∀ g ∈ s.grants,
        g.grantee = Grantee.contractSelf ∨ g.grantee = Grantee.user g.owner) := by
  refine ⟨?_, grants_reachable⟩
  intro s c ts inp p hok
  obtain ⟨hv, rfl⟩ := (storeEncryptedMood_ok_iff s c ts inp p).1 hok
  have hM := storeBody_userMoods_self s c ts (inp.handleValue % uintMod)
  rw [hM]
  by_cases hge : 7 ≤ (newMoods (s.userMoods c) (ts / 86400 * 86400)
      (inp.handleValue % uintMod)).length
  · obtain ⟨h1, -, h3⟩ := storeBody_trends_of_ge s c ts
      (inp.handleValue % uintMod) hge
    rw [h3, if_pos hge, h1, Function.update_same]
  · obtain ⟨-, -, h3⟩ := storeBody_trends_of_lt s c ts
      (inp.handleValue % uintMod) (Nat.not_le.1 hge)
    rw [h3, if_neg hge]
    simp

/-- Witness for C8's store-delta part at a concrete first store. -/
theorem C8_grants_witness :
    (storeBody initState 1 0 (6 % uintMod)).1.grants
      = initState.grants
        ++ [⟨6 % uintMod, 1, Grantee.contractSelf⟩,
            ⟨6 % uintMod, 1, Grantee.user 1⟩]
        ++ (if 7 ≤ ((storeBody initState 1 0 (6 % uintMod)).1.userMoods 1).length
            then [⟨(storeBody initState 1 0 (6 % uintMod)).1.encryptedTrends 1, 1,
                    Grantee.contractSelf⟩,
                  ⟨(storeBody initState 1 0 (6 % uintMod)).1.encryptedTrends 1, 1,
                    Grantee.user 1⟩]
            else []) :=
  C8_grants.1 initState 1 0 ⟨6, true⟩ (storeBody initState 1 0 (6 % uintMod)) rfl

/-- C9: the trend difference lives in the unsigned 32-bit domain: after a
successful store, whenever the plaintext baseline sum exceeds the
plaintext recent sum (both below 2^32), the stored trend equals
`2^32 - (sumPrevious - sumRecent)` — the wrapped value, a positive
number, never a negative one. -/
theorem C9_unsigned_wrap (s : ChainState) (c ts : Nat) (inp : ExternalInput)
    (p : ChainState × Bool) (hok : storeEncryptedMood s c ts inp = Except.ok p)
    (hge : 7 ≤ (p.1.userMoods c).length)
    (hlt : plainWindowSum (p.1.userMoods c) ((p.1.userMoods c).length - 7)
        (p.1.userMoods c).length < plainPrevSum (p.1.userMoods c))
    (hW : plainPrevSum (p.1.userMoods c) < uintMod) :
    p.1.encryptedTrends c
        = uintMod - (plainPrevSum (p.1.userMoods c)
            - plainWindowSum (p.1.userMoods c) ((p.1.userMoods c).length - 7)
                (p.1.userMoods c).length)
      ∧ 0 < p.1.encryptedTrends c := by
  obtain ⟨hv, rfl⟩ := (storeEncryptedMood_ok_iff s c ts inp p).1 hok
  have hM := storeBody_userMoods_self s c ts (inp.handleValue % uintMod)
  rw [hM] at hge hlt hW ⊢
  obtain ⟨h1, -, -⟩ := storeBody_trends_of_ge s c ts (inp.handleValue % uintMod) hge
  rw [h1, Function.update_same, trendDiff_eq, windowSum_eq_plain,
    prevWindowSum_eq_plain _ hge, Nat.mod_eq_of_lt (by omega),
    Nat.mod_eq_of_lt hW, fheSub_wrap _ _ hlt hW]
  have hpos := uintMod_pos
  exact ⟨rfl, by omega⟩

/-- Witness for C9: after value 50 on day 0 and value 1 on days 1..7
(N = 8, recent sum 7, baseline sum 50), the stored trend is
`2^32 - 43`. -/
theorem C9_unsigned_wrap_witness :
    (storeBody (execTrace hist7b) 1 604800 (1 % uintMod)).1.encryptedTrends 1
        = uintMod - (plainPrevSum
              ((storeBody (execTrace hist7b) 1 604800 (1 % uintMod)).1.userMoods 1)
            - plainWindowSum
                ((storeBody (execTrace hist7b) 1 604800 (1 % uintMod)).1.userMoods 1)
                (((storeBody (execTrace hist7b) 1 604800 (1 % uintMod)).1.userMoods 1).length - 7)
                ((storeBody (execTrace hist7b) 1 604800 (1 % uintMod)).1.userMoods 1).length)
      ∧ 0 < (storeBody (execTrace hist7b) 1 604800 (1 % uintMod)).1.encryptedTrends 1 :=
  C9_unsigned_wrap (execTrace hist7b) 1 604800 ⟨1, true⟩
    (storeBody (execTrace hist7b) 1 604800 (1 % uintMod)) rfl
    (by decide) (by decide) (by decide)

/-- C10: if block timestamps never decrease across the transactions of a
trace, then every principal's stored day sequence is strictly increasing
— insertion order coincides with calendar order, and no store can land on
a day earlier than the principal's latest entry. -/
theorem C10_calendar_order (txs : List StoreTx)
    (hmono : List.Pairwise (fun a b => a.timestamp ≤ b.timestamp) txs) (u : Nat) :
    List.Pairwise (· < ·) (getMyMoodDates (execTrace txs) u) := by
  refine pairwise_lt_trace txs initState hmono ?_ ?_ u
  · intro w
    simp [getMyMoodDates, initState]
  · intro tx _ w d hd
    simp [getMyMoodDates, initState] at hd

/-- Witness for C10 on a concrete monotone-timestamp trace (the third
store falls on the same day as the second and updates in place). -/
theorem C10_calendar_order_witness :
    List.Pairwise (· < ·) (getMyMoodDates (execTrace
      [⟨1, 0, ⟨2, true⟩⟩, ⟨1, 86400, ⟨3, true⟩⟩, ⟨1, 90000, ⟨4, true⟩⟩]) 1) :=
  C10_calendar_order
    [⟨1, 0, ⟨2, true⟩⟩, ⟨1, 86400, ⟨3, true⟩⟩, ⟨1, 90000, ⟨4, true⟩⟩]
    (by decide) 1

end MoodChain
